import Mathlib

/-! Verification of `C++/Geometry/least_vertex.cpp`.

The vertices of a polygon live in a store that maps an address to a vertex
record (a point and the addresses of the clockwise and counterclockwise
neighbours).  A `Vertex*` of the program is an address, a `Polygon` is the store
together with its cursor and its cached size.

`leastVertex`, `LeftToRightCmp`, `RightToLeftCmp` and `main` are translated from
the source file.  The headers `Point2D.h` and `Polygon.h` are not part of the
sources, so the operations they declare are modelled from the specification; each
of those definitions says so in its doc comment.  Coordinates are integers, as
in the literals `main` uses.
-/

namespace Geometry

/-! ## Point2D -/

/-- A point of the plane with the two coordinates `x` and `y`. -/
structure Point2D where
  x : Int
  y : Int
deriving DecidableEq, Repr

/-- Modelled from the spec: `operator<` of `Point2D.h`, the lexicographic order
on (x, y): x is compared first; if equal, y decides. -/
def Point2D.lt (a b : Point2D) : Bool :=
  decide (a.x < b.x) || (decide (a.x = b.x) && decide (a.y < b.y))

/-- Modelled from the spec: `operator>` of `Point2D.h`, the lexicographic order
on (x, y): x is compared first; if equal, y decides. -/
def Point2D.gt (a b : Point2D) : Bool :=
  decide (a.x > b.x) || (decide (a.x = b.x) && decide (a.y > b.y))

/-! ## Vertex: a node of the ring -/

/-- A ring node: the point it carries, the address of its clockwise neighbour
(`next`) and of its counterclockwise neighbour (`prev`). -/
structure Vertex where
  point : Point2D
  next : Nat
  prev : Nat
deriving DecidableEq, Repr

/-- The memory holding the vertices: address to vertex record. -/
abbrev Store := Nat → Vertex

/-- Overwrite the record at address `a`. -/
def Store.set (s : Store) (a : Nat) (r : Vertex) : Store :=
  fun b => if b = a then r else s b

/-- The two rotational directions, `Vertex::CLOCKWISE` and its opposite. -/
inductive Rotation where
  | CLOCKWISE
  | COUNTER_CLOCKWISE
deriving DecidableEq, Repr

/-- Modelled from the spec: the `Vertex` constructor of `Polygon.h`, which
creates at the fresh address `a` one node whose `next` and `prev` both point to
itself. -/
def Vertex.create (s : Store) (a : Nat) (p : Point2D) : Store :=
  s.set a ⟨p, a, a⟩

/-- Modelled from the spec: `Vertex::insert` of `Polygon.h`, which splices the
node `b` into the ring on the clockwise side of the node `self`: `b` becomes the
new `next` of `self`, and the `prev` link of the old `next` is adjusted. -/
def Vertex.insert (s : Store) (self b : Nat) : Store :=
  let c := (s self).next
  let s1 := s.set b { s b with next := c, prev := self }
  let s2 := s1.set self { s1 self with next := b }
  s2.set c { s2 c with prev := b }

/-- The address reached from `v` by `n` clockwise steps. -/
def walk (s : Store) (v : Nat) : Nat → Nat
  | 0 => v
  | n + 1 => (s (walk s v n)).next

/-! ## Polygon: a cursor over a ring -/

/-- A polygon: the store with its ring, the target vertex `v` (the cursor) and
the cached vertex count `size`. -/
structure Polygon where
  store : Store
  v : Nat
  size : Nat

/-- Modelled from the spec: `Polygon::targetVertex` of `Polygon.h`, a pure
accessor returning the currently referenced vertex. -/
def Polygon.targetVertex (p : Polygon) : Nat := p.v

/-- Modelled from the spec: `Polygon::setTargetVertex` of `Polygon.h`, which
rebinds the target vertex to `w` without validating it. -/
def Polygon.setTargetVertex (p : Polygon) (w : Nat) : Polygon :=
  { p with v := w }

/-- Modelled from the spec: `Polygon::advance` of `Polygon.h`, which moves the
target vertex to the neighbour in the given direction (clockwise follows
`next`, counterclockwise follows `prev`) and touches nothing else. -/
def Polygon.advance (p : Polygon) (d : Rotation) : Polygon :=
  match d with
  | .CLOCKWISE => { p with v := (p.store p.v).next }
  | .COUNTER_CLOCKWISE => { p with v := (p.store p.v).prev }

/-- Modelled from the spec: the ring walk of the `Polygon` constructor of
`Polygon.h`, counting the clockwise steps from `cur` until `start` is reached
again; `none` when the fuel runs out first. -/
def countRing (s : Store) (start : Nat) : Nat → Nat → Nat → Option Nat
  | 0, _, _ => none
  | fuel + 1, cur, n =>
    if (s cur).next = start then some (n + 1)
    else countRing s start fuel (s cur).next (n + 1)

/-- Modelled from the spec: the `Polygon` constructor of `Polygon.h`, which
adopts the ring reachable from `start`, counts the ring size by walking once and
sets the target vertex to `start`. -/
def Polygon.create (s : Store) (start : Nat) (fuel : Nat) : Option Polygon :=
  (countRing s start fuel start 0).map fun n => ⟨s, start, n⟩

/-- The point carried by the vertex at address `a`. -/
def Polygon.pointAt (p : Polygon) (a : Nat) : Point2D := (p.store a).point

/-- The vertex `i` clockwise steps after the target vertex. -/
def Polygon.nth (p : Polygon) (i : Nat) : Nat := walk p.store p.v i

/-- The vertex `w` is one of the `size` vertices of the ring of `p`. -/
def Polygon.InRing (p : Polygon) (w : Nat) : Prop :=
  ∃ i, i < p.size ∧ p.nth i = w

/-- The ring of `p` is closed and has exactly `size` vertices, `size` at least 1:
following `next` from the target vertex comes back to it after `size` steps, the
vertices met on the way are pairwise different, and `prev` undoes `next`. -/
def Polygon.ClosedRing (p : Polygon) : Prop :=
  1 ≤ p.size ∧ p.nth p.size = p.v ∧
  (∀ i, i < p.size → ∀ j, j < i → p.nth i ≠ p.nth j) ∧
  (∀ i, i < p.size → (p.store (p.nth (i + 1))).prev = p.nth i)

instance (p : Polygon) : Decidable p.ClosedRing := by
  unfold Polygon.ClosedRing; infer_instance

instance (p : Polygon) (w : Nat) : Decidable (p.InRing w) := by
  unfold Polygon.InRing; infer_instance

/-! ## leastVertex and the comparators -/

/-- A three-way comparator, `int (*cmp)(Point2D*, Point2D*)`, that only reads
the two points it is handed: a function of their values.  Comparators that
write through their arguments are `PtrCmp` below. -/
abbrev Cmp := Point2D → Point2D → Int

/-- What one run of `leastVertex` leaves behind: the polygon, the local
`bestVertex`, and (ghost) the comparator invocations made so far, each with the
addresses of its first and second argument. -/
structure Scan where
  polygon : Polygon
  bestVertex : Nat
  calls : List (Nat × Nat)

/-- The `for` loop of `leastVertex`, entered with the counter `i`: while
`i < polygon.size()` the body compares the target vertex with `bestVertex`,
then the cursor advances clockwise and `i` is incremented.  `none` when the fuel
runs out before the loop condition fails. -/
def leastVertexLoop (cmp : Cmp) : Nat → Nat → Scan → Option Scan
  | fuel, i, s =>
    if i < s.polygon.size then
      match fuel with
      | 0 => none
      | fuel + 1 =>
        let t := s.polygon.targetVertex
        let best :=
          if cmp (s.polygon.pointAt t) (s.polygon.pointAt s.bestVertex) < 0 then t
          else s.bestVertex
        leastVertexLoop cmp fuel (i + 1)
          ⟨s.polygon.advance .CLOCKWISE, best, s.calls ++ [(t, s.bestVertex)]⟩
    else some s

/-- The function `leastVertex(polygon, cmp)`: the result holds the returned
vertex in `bestVertex`, the polygon as the call leaves it, and the comparator
invocations made. -/
def leastVertex (polygon : Polygon) (cmp : Cmp) : Option Scan :=
  let bestVertex := polygon.targetVertex
  let polygon := polygon.advance .CLOCKWISE
  match leastVertexLoop cmp polygon.size 1 ⟨polygon, bestVertex, []⟩ with
  | none => none
  | some s => some ⟨s.polygon.setTargetVertex s.bestVertex, s.bestVertex, s.calls⟩

/-- The comparator `LeftToRightCmp`. -/
def LeftToRightCmp (pointA pointB : Point2D) : Int :=
  if pointA.lt pointB then -1
  else if pointA.gt pointB then 1
  else 0

/-- The comparator `RightToLeftCmp`. -/
def RightToLeftCmp (pointA pointB : Point2D) : Int :=
  LeftToRightCmp pointB pointA

/-- The store `main` builds: the start vertex at address 0, then three vertices
at the addresses 1, 2, 3, each inserted on the start vertex. -/
def mainStore : Store :=
  let s0 : Store := fun a => ⟨⟨0, 0⟩, a, a⟩
  let s1 := Vertex.create s0 0 ⟨-1, 3⟩
  let s2 := Vertex.insert (Vertex.create s1 1 ⟨4, 3⟩) 0 1
  let s3 := Vertex.insert (Vertex.create s2 2 ⟨4, -3⟩) 0 2
  Vertex.insert (Vertex.create s3 3 ⟨-1, -3⟩) 0 3

/-- The function `main`: the two points it prints, first that of `minVertex`,
then that of `maxVertex`.  The fuel bounds the ring walk of the `Polygon`
constructor. -/
def main (fuel : Nat) : Option (Point2D × Point2D) := do
  let polygon ← Polygon.create mainStore 0 fuel
  let r1 ← leastVertex polygon LeftToRightCmp
  let r2 ← leastVertex r1.polygon RightToLeftCmp
  pure (r1.polygon.pointAt r1.bestVertex, r2.polygon.pointAt r2.bestVertex)

/-- A comparator consistent with a single total order (ties allowed): `a` sorts
before `b` exactly when `b` sorts after `a`, and "not after" is transitive. -/
structure ConsistentCmp (cmp : Cmp) : Prop where
  swap : ∀ a b, cmp a b < 0 ↔ 0 < cmp b a
  trans : ∀ a b c, cmp a b ≤ 0 → cmp b c ≤ 0 → cmp a c ≤ 0

/-- A two-vertex ring whose vertices carry the same point, cursor at address 0. -/
def tiePolygon : Polygon :=
  ⟨fun a => ⟨⟨0, 0⟩, 1 - a, 1 - a⟩, 0, 2⟩

/-- A one-vertex ring: the vertex at address 0 is its own neighbour. -/
def singlePolygon : Polygon :=
  ⟨fun _ => ⟨⟨2, 5⟩, 0, 0⟩, 0, 1⟩

/-- The polygon of `main`: the ring of `mainStore` with the cursor on the start
vertex. -/
def mainPolygon : Polygon := ⟨mainStore, 0, 4⟩

/-! ## The scan as a function of the number of steps -/

/-- One pass through the loop: the body, then the clockwise advance. -/
def Scan.step (cmp : Cmp) (s : Scan) : Scan :=
  let t := s.polygon.targetVertex
  ⟨s.polygon.advance .CLOCKWISE,
    if cmp (s.polygon.pointAt t) (s.polygon.pointAt s.bestVertex) < 0 then t
    else s.bestVertex,
    s.calls ++ [(t, s.bestVertex)]⟩

/-- The state after `n` passes through the loop. -/
def Scan.steps (cmp : Cmp) : Nat → Scan → Scan
  | 0, s => s
  | n + 1, s => Scan.steps cmp n (s.step cmp)

/-- The best vertex among the target vertex and the `n` vertices after it, as
the scan chooses it: a later vertex replaces the best one only when the
comparator puts it strictly before. -/
def Polygon.best (p : Polygon) (cmp : Cmp) : Nat → Nat
  | 0 => p.v
  | n + 1 =>
    if cmp (p.pointAt (p.nth (n + 1))) (p.pointAt (p.best cmp n)) < 0 then p.nth (n + 1)
    else p.best cmp n

/-- The comparator invocations of the first `n` passes through the loop. -/
def Polygon.callLog (p : Polygon) (cmp : Cmp) (n : Nat) : List (Nat × Nat) :=
  (List.range n).map fun k => (p.nth (k + 1), p.best cmp k)

/-! ## Comparators that may write -/

/-- A three-way comparator as the source types it,
`int (*cmp)(Point2D*, Point2D*)`: it is handed the memory and the addresses of
two vertices, whose points its arguments point to; since the pointers are not
`const` it may write, so it returns the memory it leaves beside its result. -/
abbrev PtrCmp := Store → Nat → Nat → Int × Store

/-- A comparator that only reads the values of its two points, as a `PtrCmp`:
the memory is left as it was. -/
def Cmp.byValue (cmp : Cmp) : PtrCmp :=
  fun st a b => (cmp (st a).point (st b).point, st)

/-- The `for` loop of `leastVertex` with a comparator that may write: as
`leastVertexLoop`, and each pass goes on with the memory the comparator left. -/
def leastVertexLoopW (cmp : PtrCmp) : Nat → Nat → Scan → Option Scan
  | fuel, i, s =>
    if i < s.polygon.size then
      match fuel with
      | 0 => none
      | fuel + 1 =>
        let t := s.polygon.targetVertex
        let c := cmp s.polygon.store t s.bestVertex
        let polygon : Polygon := { s.polygon with store := c.2 }
        let best := if c.1 < 0 then t else s.bestVertex
        leastVertexLoopW cmp fuel (i + 1)
          ⟨polygon.advance .CLOCKWISE, best, s.calls ++ [(t, s.bestVertex)]⟩
    else some s

/-- The function `leastVertex(polygon, cmp)` with a comparator that may write. -/
def leastVertexW (polygon : Polygon) (cmp : PtrCmp) : Option Scan :=
  let bestVertex := polygon.targetVertex
  let polygon := polygon.advance .CLOCKWISE
  match leastVertexLoopW cmp polygon.size 1 ⟨polygon, bestVertex, []⟩ with
  | none => none
  | some s => some ⟨s.polygon.setTargetVertex s.bestVertex, s.bestVertex, s.calls⟩

/-- A comparator that orders as `LeftToRightCmp` and then overwrites the point
of its first argument with (0, 0). -/
def overwritingCmp : PtrCmp :=
  fun st a b =>
    (LeftToRightCmp (st a).point (st b).point, st.set a { st a with point := ⟨0, 0⟩ })

theorem Scan.step_size (cmp : Cmp) (s : Scan) :
    (s.step cmp).polygon.size = s.polygon.size := rfl

theorem Scan.steps_succ_last (cmp : Cmp) (n : Nat) (s : Scan) :
    Scan.steps cmp (n + 1) s = (Scan.steps cmp n s).step cmp := by
  induction n generalizing s with
  | zero => rfl
  | succ n ih =>
    show Scan.steps cmp (n + 1) (s.step cmp) = _
    rw [ih]
    rfl

/-- With enough fuel the loop returns the state after `size - i` passes. -/
theorem leastVertexLoop_eq (cmp : Cmp) (fuel i : Nat) (s : Scan)
    (h : s.polygon.size - i ≤ fuel) :
    leastVertexLoop cmp fuel i s = some (Scan.steps cmp (s.polygon.size - i) s) := by
  induction fuel generalizing i s with
  | zero =>
    have h0 : s.polygon.size - i = 0 := Nat.le_zero.mp h
    have hi : ¬ i < s.polygon.size := by omega
    rw [leastVertexLoop, if_neg hi, h0]
    rfl
  | succ fuel ih =>
    by_cases hi : i < s.polygon.size
    · rw [leastVertexLoop, if_pos hi]
      have hs : s.polygon.size - i = (s.polygon.size - (i + 1)) + 1 := by omega
      have := ih (i + 1) (s.step cmp) (by rw [Scan.step_size]; omega)
      rw [Scan.step_size] at this
      rw [hs]
      exact this
    · have h0 : s.polygon.size - i = 0 := by omega
      rw [leastVertexLoop, if_neg hi, h0]
      rfl

theorem Scan.steps_eq (cmp : Cmp) (p : Polygon) (calls : List (Nat × Nat)) (n : Nat) :
    Scan.steps cmp n ⟨p.advance .CLOCKWISE, p.v, calls⟩ =
      ⟨⟨p.store, p.nth (n + 1), p.size⟩, p.best cmp n, calls ++ p.callLog cmp n⟩ := by
  induction n with
  | zero => simp [Scan.steps, Polygon.advance, Polygon.nth, walk, Polygon.best, Polygon.callLog]
  | succ n ih =>
    rw [Scan.steps_succ_last, ih]
    simp [Scan.step, Polygon.advance, Polygon.nth, walk, Polygon.best, Polygon.callLog,
      Polygon.targetVertex, Polygon.pointAt, List.range_succ]

/-- The function `leastVertex` always returns: the returned vertex is the best
one of the scan over the `size - 1` vertices after the target vertex, the
cursor is on it, and store and size are as before. -/
theorem leastVertex_eq (p : Polygon) (cmp : Cmp) :
    leastVertex p cmp =
      some ⟨⟨p.store, p.best cmp (p.size - 1), p.size⟩, p.best cmp (p.size - 1),
        p.callLog cmp (p.size - 1)⟩ := by
  have h := leastVertexLoop_eq cmp (p.advance .CLOCKWISE).size 1
    ⟨p.advance .CLOCKWISE, p.targetVertex, []⟩ (Nat.sub_le _ _)
  have hsz : (p.advance Rotation.CLOCKWISE).size = p.size := rfl
  simp only [hsz, Polygon.targetVertex] at h
  rw [Scan.steps_eq] at h
  simp only [leastVertex, hsz, Polygon.targetVertex, h, Polygon.setTargetVertex, List.nil_append]

/-! ## The comparators -/

theorem LeftToRightCmp_eq (a b : Point2D) :
    LeftToRightCmp a b =
      if a.x < b.x ∨ (a.x = b.x ∧ a.y < b.y) then -1
      else if b.x < a.x ∨ (a.x = b.x ∧ b.y < a.y) then 1
      else 0 := by
  simp [LeftToRightCmp, Point2D.lt, Point2D.gt]

theorem LeftToRightCmp_neg_iff (a b : Point2D) :
    LeftToRightCmp a b < 0 ↔ a.x < b.x ∨ (a.x = b.x ∧ a.y < b.y) := by
  rw [LeftToRightCmp_eq]
  split_ifs <;> omega

theorem LeftToRightCmp_pos_iff (a b : Point2D) :
    0 < LeftToRightCmp a b ↔ b.x < a.x ∨ (a.x = b.x ∧ b.y < a.y) := by
  rw [LeftToRightCmp_eq]
  split_ifs <;> omega

theorem LeftToRightCmp_nonpos_iff (a b : Point2D) :
    LeftToRightCmp a b ≤ 0 ↔ a.x < b.x ∨ (a.x = b.x ∧ a.y ≤ b.y) := by
  rw [LeftToRightCmp_eq]
  split_ifs <;> omega

theorem LeftToRightCmp_consistent : ConsistentCmp LeftToRightCmp where
  swap a b := by
    rw [LeftToRightCmp_neg_iff, LeftToRightCmp_pos_iff]
    omega
  trans a b c := by
    simp only [LeftToRightCmp_nonpos_iff]
    omega

theorem RightToLeftCmp_consistent : ConsistentCmp RightToLeftCmp where
  swap a b := by
    unfold RightToLeftCmp
    rw [LeftToRightCmp_neg_iff, LeftToRightCmp_pos_iff]
    omega
  trans a b c := by
    unfold RightToLeftCmp
    simp only [LeftToRightCmp_nonpos_iff]
    omega

/-! ## Consequences of consistency -/

theorem ConsistentCmp.self_eq {cmp : Cmp} (hc : ConsistentCmp cmp) (a : Point2D) :
    cmp a a = 0 := by
  have h := hc.swap a a
  omega

theorem ConsistentCmp.le_of_not_lt {cmp : Cmp} (hc : ConsistentCmp cmp) {a b : Point2D}
    (h : ¬ cmp a b < 0) : cmp b a ≤ 0 := by
  have h1 := hc.swap a b
  have h2 := hc.swap b a
  omega

theorem ConsistentCmp.not_lt_of_le {cmp : Cmp} (hc : ConsistentCmp cmp) {a b : Point2D}
    (h : cmp a b ≤ 0) : ¬ cmp b a < 0 := by
  have h1 := hc.swap b a
  omega

theorem ConsistentCmp.lt_of_lt_of_le {cmp : Cmp} (hc : ConsistentCmp cmp) {a b c : Point2D}
    (h1 : cmp a b < 0) (h2 : cmp b c ≤ 0) : cmp a c < 0 := by
  by_contra h
  have h3 : cmp c a ≤ 0 := hc.le_of_not_lt h
  have h4 : cmp b a ≤ 0 := hc.trans b c a h2 h3
  exact hc.not_lt_of_le h4 h1

/-! ## Walking round the ring -/

theorem walk_add (s : Store) (v j k : Nat) : walk s (walk s v j) k = walk s v (j + k) := by
  induction k with
  | zero => rfl
  | succ k ih =>
    show (s (walk s (walk s v j) k)).next = (s (walk s v (j + k))).next
    rw [ih]

theorem Polygon.nth_add_mul (p : Polygon) (h : p.nth p.size = p.v) (m q : Nat) :
    p.nth (m + p.size * q) = p.nth m := by
  induction q with
  | zero => rfl
  | succ q ih =>
    have e : m + p.size * (q + 1) = p.size + (m + p.size * q) := by ring
    unfold Polygon.nth at *
    rw [e, ← walk_add, h, ih]

theorem Polygon.nth_mod (p : Polygon) (h : p.nth p.size = p.v) (m : Nat) :
    p.nth m = p.nth (m % p.size) := by
  conv_lhs => rw [← Nat.mod_add_div m p.size]
  exact p.nth_add_mul h _ _

/-- Every vertex reached by clockwise steps from the cursor of a closed ring is
one of its `size` vertices. -/
theorem Polygon.ClosedRing.inRing_nth {p : Polygon} (h : p.ClosedRing) (m : Nat) :
    p.InRing (p.nth m) :=
  ⟨m % p.size, Nat.mod_lt _ h.1, (p.nth_mod h.2.1 m).symm⟩

/-! ## The best vertex of the scan -/

theorem Polygon.best_eq_nth (p : Polygon) (cmp : Cmp) (n : Nat) :
    ∃ k, k ≤ n ∧ p.best cmp n = p.nth k := by
  induction n with
  | zero => exact ⟨0, le_refl _, rfl⟩
  | succ n ih =>
    obtain ⟨k, hk, e⟩ := ih
    unfold Polygon.best
    split_ifs
    · exact ⟨n + 1, le_refl _, rfl⟩
    · exact ⟨k, Nat.le_succ_of_le hk, e⟩

/-- The best vertex after `n` steps is the vertex `k` steps after the cursor
for a `k` such that the comparator puts it strictly before every vertex met
earlier (the cursor included) and not after any vertex met up to step `n`. -/
theorem Polygon.best_first (p : Polygon) {cmp : Cmp} (hc : ConsistentCmp cmp) (n : Nat) :
    ∃ k, k ≤ n ∧ p.best cmp n = p.nth k ∧
      (∀ j, j < k → cmp (p.pointAt (p.nth k)) (p.pointAt (p.nth j)) < 0) ∧
      (∀ j, j ≤ n → cmp (p.pointAt (p.nth k)) (p.pointAt (p.nth j)) ≤ 0) := by
  induction n with
  | zero =>
    refine ⟨0, le_refl _, rfl, fun j hj => absurd hj (Nat.not_lt_zero j), fun j hj => ?_⟩
    have : j = 0 := Nat.le_zero.mp hj
    subst this
    exact le_of_eq (hc.self_eq _)
  | succ n ih =>
    obtain ⟨k, hk, e, hlt, hle⟩ := ih
    by_cases hnew : cmp (p.pointAt (p.nth (n + 1))) (p.pointAt (p.best cmp n)) < 0
    · refine ⟨n + 1, le_refl _, ?_, fun j hj => ?_, fun j hj => ?_⟩
      · unfold Polygon.best
        rw [if_pos hnew]
      · rw [e] at hnew
        exact hc.lt_of_lt_of_le hnew (hle j (Nat.lt_succ_iff.mp hj))
      · rcases Nat.lt_or_ge j (n + 1) with hj1 | hj1
        · rw [e] at hnew
          exact le_of_lt (hc.lt_of_lt_of_le hnew (hle j (Nat.lt_succ_iff.mp hj1)))
        · have : j = n + 1 := le_antisymm hj hj1
          subst this
          exact le_of_eq (hc.self_eq _)
    · refine ⟨k, Nat.le_succ_of_le hk, ?_, hlt, fun j hj => ?_⟩
      · unfold Polygon.best
        rw [if_neg hnew, e]
      · rcases Nat.lt_or_ge j (n + 1) with hj1 | hj1
        · exact hle j (Nat.lt_succ_iff.mp hj1)
        · have : j = n + 1 := le_antisymm hj hj1
          subst this
          rw [e] at hnew
          exact hc.le_of_not_lt hnew

/-- A cursor that no vertex of the scan beats stays the best vertex. -/
theorem Polygon.best_eq_self (p : Polygon) (cmp : Cmp) (n : Nat)
    (h : ∀ k, k ≤ n → ¬ cmp (p.pointAt (p.nth k)) (p.pointAt p.v) < 0) :
    p.best cmp n = p.v := by
  induction n with
  | zero => rfl
  | succ n ih =>
    have e := ih fun k hk => h k (Nat.le_succ_of_le hk)
    unfold Polygon.best
    rw [e, if_neg (h (n + 1) (le_refl _))]

/-- In a closed ring scanned by a consistent comparator the returned vertex is
a vertex of the ring that the comparator does not put after any vertex of the
ring. -/
theorem Polygon.best_least {p : Polygon} {cmp : Cmp} (hr : p.ClosedRing)
    (hc : ConsistentCmp cmp) :
    p.InRing (p.best cmp (p.size - 1)) ∧
      ∀ w, p.InRing w → cmp (p.pointAt (p.best cmp (p.size - 1))) (p.pointAt w) ≤ 0 := by
  obtain ⟨k, hk, e, -, hle⟩ := p.best_first hc (p.size - 1)
  have h1 := hr.1
  refine ⟨⟨k, by omega, e.symm⟩, ?_⟩
  rintro w ⟨i, hi, rfl⟩
  rw [e]
  exact hle i (by omega)

/-- Calling `leastVertex` again from the vertex it returned finds nothing better:
the best vertex of the second scan is the start of that scan. -/
theorem Polygon.best_again {p : Polygon} {cmp : Cmp} (hr : p.ClosedRing)
    (hc : ConsistentCmp cmp) (n : Nat) :
    (⟨p.store, p.best cmp (p.size - 1), p.size⟩ : Polygon).best cmp n =
      p.best cmp (p.size - 1) := by
  obtain ⟨k, -, e⟩ := p.best_eq_nth cmp (p.size - 1)
  apply Polygon.best_eq_self
  intro m _
  have hm : (⟨p.store, p.best cmp (p.size - 1), p.size⟩ : Polygon).nth m = p.nth (k + m) := by
    show walk p.store (p.best cmp (p.size - 1)) m = walk p.store p.v (k + m)
    rw [e]
    exact walk_add _ _ _ _
  rw [hm]
  exact hc.not_lt_of_le ((Polygon.best_least hr hc).2 _ (hr.inRing_nth _))

theorem mainPolygon_create (k : Nat) :
    Polygon.create mainStore 0 (k + 4) = some mainPolygon := by
  have h0 : (mainStore 0).next = 3 := by decide
  have h3 : (mainStore 3).next = 2 := by decide
  have h2 : (mainStore 2).next = 1 := by decide
  have h1 : (mainStore 1).next = 0 := by decide
  simp [Polygon.create, countRing, h0, h1, h2, h3, mainPolygon]

/-! ## The claims -/

/-- C1: for every closed ring of at least one vertex, whatever vertex of it the
cursor is on, and every comparator consistent with a single total order,
`leastVertex` returns a vertex of the ring whose point the comparator does not
put after the point of any vertex of the ring. -/
theorem leastVertex_least (p : Polygon) (cmp : Cmp) (hr : p.ClosedRing)
    (hc : ConsistentCmp cmp) :
    ∃ r, leastVertex p cmp = some r ∧ p.InRing r.bestVertex ∧
      ∀ w, p.InRing w → cmp (p.pointAt r.bestVertex) (p.pointAt w) ≤ 0 :=
  ⟨_, leastVertex_eq p cmp, Polygon.best_least hr hc⟩

theorem leastVertex_least_witness :
    mainPolygon.ClosedRing ∧ ConsistentCmp LeftToRightCmp ∧
      ∃ r, leastVertex mainPolygon LeftToRightCmp = some r ∧ mainPolygon.InRing r.bestVertex ∧
        ∀ w, mainPolygon.InRing w →
          LeftToRightCmp (mainPolygon.pointAt r.bestVertex) (mainPolygon.pointAt w) ≤ 0 :=
  ⟨by decide, LeftToRightCmp_consistent,
    leastVertex_least mainPolygon LeftToRightCmp (by decide) LeftToRightCmp_consistent⟩

/-- C2: for every polygon (so for every non-empty closed ring) and every
comparator, `leastVertex` returns, and the target vertex of the polygon it
leaves is exactly the vertex returned. -/
theorem leastVertex_cursor (p : Polygon) (cmp : Cmp) :
    ∃ r, leastVertex p cmp = some r ∧ r.polygon.targetVertex = r.bestVertex :=
  ⟨_, leastVertex_eq p cmp, rfl⟩

/-- C3: on the ring `main` builds (start vertex (-1,3), then (4,3), (4,-3),
(-1,-3) inserted on the start vertex, cursor on the start vertex) the call with
`LeftToRightCmp` returns the vertex with point (-1,-3) and the call with
`RightToLeftCmp`, run on the polygon as the first call left it, returns the
vertex with point (4,3); this needs fuel 4 for the ring walk of the
constructor. -/
theorem main_output (fuel : Nat) (h : 4 ≤ fuel) :
    main fuel = some (⟨-1, -3⟩, ⟨4, 3⟩) := by
  obtain ⟨k, rfl⟩ := Nat.exists_eq_add_of_le' h
  have e1 : mainPolygon.best LeftToRightCmp 3 = 3 := by decide
  have e2 : (⟨mainStore, 3, 4⟩ : Polygon).best RightToLeftCmp 3 = 1 := by decide
  have e3 : mainPolygon.size = 4 := rfl
  have e4 : mainPolygon.store = mainStore := rfl
  have p3 : (⟨mainStore, 3, 4⟩ : Polygon).pointAt 3 = ⟨-1, -3⟩ := by decide
  have p1 : (⟨mainStore, 1, 4⟩ : Polygon).pointAt 1 = ⟨4, 3⟩ := by decide
  simp only [main, mainPolygon_create, leastVertex_eq, e1, e3, e4, Option.bind_eq_bind,
    Option.some_bind, Nat.add_one_sub_one, e2, p3, p1, pure]

theorem main_output_witness : 4 ≤ 4 ∧ main 4 = some (⟨-1, -3⟩, ⟨4, 3⟩) :=
  ⟨le_refl 4, main_output 4 (le_refl 4)⟩

/-- C4: for every non-empty closed ring, whatever vertex of it the cursor is on,
`leastVertex` with `LeftToRightCmp` returns a vertex of the ring whose point has
the smallest x of all points of the ring and, among the points with that x, the
smallest y. -/
theorem leastVertex_leftmost (p : Polygon) (hr : p.ClosedRing) :
    ∃ r, leastVertex p LeftToRightCmp = some r ∧ p.InRing r.bestVertex ∧
      ∀ w, p.InRing w →
        (p.pointAt r.bestVertex).x ≤ (p.pointAt w).x ∧
        ((p.pointAt w).x = (p.pointAt r.bestVertex).x →
          (p.pointAt r.bestVertex).y ≤ (p.pointAt w).y) := by
  obtain ⟨hin, hle⟩ := Polygon.best_least hr LeftToRightCmp_consistent
  refine ⟨_, leastVertex_eq p LeftToRightCmp, hin, fun w hw => ?_⟩
  have h := (LeftToRightCmp_nonpos_iff _ _).mp (hle w hw)
  dsimp only
  constructor
  · omega
  · intro hx
    omega

theorem leastVertex_leftmost_witness :
    mainPolygon.ClosedRing ∧
      ∃ r, leastVertex mainPolygon LeftToRightCmp = some r ∧ mainPolygon.InRing r.bestVertex ∧
        ∀ w, mainPolygon.InRing w →
          (mainPolygon.pointAt r.bestVertex).x ≤ (mainPolygon.pointAt w).x ∧
          ((mainPolygon.pointAt w).x = (mainPolygon.pointAt r.bestVertex).x →
            (mainPolygon.pointAt r.bestVertex).y ≤ (mainPolygon.pointAt w).y) :=
  ⟨by decide, leastVertex_leftmost mainPolygon (by decide)⟩

/-- C5: for every non-empty closed ring, whatever vertex of it the cursor is on,
`leastVertex` with `RightToLeftCmp` returns a vertex of the ring whose point has
the greatest x of all points of the ring and, among the points with that x, the
greatest y. -/
theorem leastVertex_rightmost (p : Polygon) (hr : p.ClosedRing) :
    ∃ r, leastVertex p RightToLeftCmp = some r ∧ p.InRing r.bestVertex ∧
      ∀ w, p.InRing w →
        (p.pointAt w).x ≤ (p.pointAt r.bestVertex).x ∧
        ((p.pointAt w).x = (p.pointAt r.bestVertex).x →
          (p.pointAt w).y ≤ (p.pointAt r.bestVertex).y) := by
  obtain ⟨hin, hle⟩ := Polygon.best_least hr RightToLeftCmp_consistent
  refine ⟨_, leastVertex_eq p RightToLeftCmp, hin, fun w hw => ?_⟩
  have h := (LeftToRightCmp_nonpos_iff _ _).mp (hle w hw)
  dsimp only
  constructor
  · omega
  · intro hx
    omega

theorem leastVertex_rightmost_witness :
    (⟨mainStore, 3, 4⟩ : Polygon).ClosedRing ∧
      ∃ r, leastVertex ⟨mainStore, 3, 4⟩ RightToLeftCmp = some r ∧
        (⟨mainStore, 3, 4⟩ : Polygon).InRing r.bestVertex ∧
        ∀ w, (⟨mainStore, 3, 4⟩ : Polygon).InRing w →
          ((mainStore w).point).x ≤ ((mainStore r.bestVertex).point).x ∧
          (((mainStore w).point).x = ((mainStore r.bestVertex).point).x →
            ((mainStore w).point).y ≤ ((mainStore r.bestVertex).point).y) :=
  ⟨by decide, leastVertex_rightmost ⟨mainStore, 3, 4⟩ (by decide)⟩

/-- C6: `leastVertex` is idempotent: for every non-empty closed ring, ties among
the extremal points included, and every comparator consistent with a total
order, a second call with the same comparator right after the first returns the
same ring node and leaves the cursor on it. -/
theorem leastVertex_idempotent (p : Polygon) (cmp : Cmp) (hr : p.ClosedRing)
    (hc : ConsistentCmp cmp) :
    ∃ r1 r2, leastVertex p cmp = some r1 ∧ leastVertex r1.polygon cmp = some r2 ∧
      r2.bestVertex = r1.bestVertex ∧ r2.polygon.targetVertex = r1.bestVertex := by
  refine ⟨_, _, leastVertex_eq p cmp, leastVertex_eq _ cmp, ?_, ?_⟩
  · exact Polygon.best_again hr hc _
  · exact Polygon.best_again hr hc _

theorem leastVertex_idempotent_witness :
    tiePolygon.ClosedRing ∧ ConsistentCmp LeftToRightCmp ∧
      ∃ r1 r2, leastVertex tiePolygon LeftToRightCmp = some r1 ∧
        leastVertex r1.polygon LeftToRightCmp = some r2 ∧
        r2.bestVertex = r1.bestVertex ∧ r2.polygon.targetVertex = r1.bestVertex :=
  ⟨by decide, LeftToRightCmp_consistent,
    leastVertex_idempotent tiePolygon LeftToRightCmp (by decide) LeftToRightCmp_consistent⟩

/-- C7, as stated, fails: in the two-vertex ring `tiePolygon` both vertices carry
the same point, the vertex one clockwise step after the initial target is equal
to the kept vertex under the comparator, yet the kept vertex is the initial
target itself and none of the vertices of the scan order that starts after the
initial target. -/
theorem tie_rule_as_stated_fails :
    tiePolygon.ClosedRing ∧ ConsistentCmp LeftToRightCmp ∧
      ∃ r, leastVertex tiePolygon LeftToRightCmp = some r ∧
        LeftToRightCmp (tiePolygon.pointAt (tiePolygon.nth 1))
          (tiePolygon.pointAt r.bestVertex) = 0 ∧
        r.bestVertex = tiePolygon.nth 0 ∧
        ∀ k, 1 ≤ k → k < tiePolygon.size → r.bestVertex ≠ tiePolygon.nth k := by
  refine ⟨by decide, LeftToRightCmp_consistent, _, leastVertex_eq _ _, ?_, ?_, ?_⟩
  · decide
  · decide
  · decide

/-- C7, amended: for every non-empty closed ring and every comparator consistent
with a total order, the kept vertex is a least vertex of the ring (the
comparator puts it after no vertex of the ring), and among the vertices equal to
it under the comparator it is the first in the clockwise order that starts at the
initial target itself (position 0): it is strictly before every vertex at an
earlier position, so no vertex at an earlier position is equal to it. -/
theorem leastVertex_tie_rule (p : Polygon) (cmp : Cmp) (hr : p.ClosedRing)
    (hc : ConsistentCmp cmp) :
    ∃ r k, leastVertex p cmp = some r ∧ k < p.size ∧ r.bestVertex = p.nth k ∧
      (∀ j, j < p.size → cmp (p.pointAt r.bestVertex) (p.pointAt (p.nth j)) ≤ 0) ∧
      (∀ j, j < k → cmp (p.pointAt r.bestVertex) (p.pointAt (p.nth j)) < 0) ∧
      (∀ j, j < p.size → cmp (p.pointAt (p.nth j)) (p.pointAt r.bestVertex) = 0 → k ≤ j) := by
  obtain ⟨k, hk, e, hlt, hle⟩ := p.best_first hc (p.size - 1)
  have h1 := hr.1
  refine ⟨_, k, leastVertex_eq p cmp, by omega, e, fun j hj => ?_, fun j hj => ?_,
    fun j _ h0 => ?_⟩
  · show cmp (p.pointAt (p.best cmp (p.size - 1))) (p.pointAt (p.nth j)) ≤ 0
    rw [e]
    exact hle j (by omega)
  · show cmp (p.pointAt (p.best cmp (p.size - 1))) (p.pointAt (p.nth j)) < 0
    rw [e]
    exact hlt j hj
  · by_contra hjk
    have h2 := hlt j (by omega)
    have h3 := (hc.swap _ _).mp h2
    simp only [e] at h0
    omega

theorem leastVertex_tie_rule_witness :
    tiePolygon.ClosedRing ∧ ConsistentCmp LeftToRightCmp ∧
      ∃ r k, leastVertex tiePolygon LeftToRightCmp = some r ∧ k < tiePolygon.size ∧
        r.bestVertex = tiePolygon.nth k ∧
        (∀ j, j < tiePolygon.size →
          LeftToRightCmp (tiePolygon.pointAt r.bestVertex)
            (tiePolygon.pointAt (tiePolygon.nth j)) ≤ 0) ∧
        (∀ j, j < k →
          LeftToRightCmp (tiePolygon.pointAt r.bestVertex)
            (tiePolygon.pointAt (tiePolygon.nth j)) < 0) ∧
        (∀ j, j < tiePolygon.size →
          LeftToRightCmp (tiePolygon.pointAt (tiePolygon.nth j))
            (tiePolygon.pointAt r.bestVertex) = 0 → k ≤ j) :=
  ⟨by decide, LeftToRightCmp_consistent,
    leastVertex_tie_rule tiePolygon LeftToRightCmp (by decide) LeftToRightCmp_consistent⟩

/-- C8: on a polygon of size 1 `leastVertex` returns the target vertex and leaves
the cursor on it without a single comparator invocation, and so with the same
result for every comparator, orderings or not. -/
theorem leastVertex_singleton (p : Polygon) (h : p.size = 1) (cmp : Cmp) :
    ∃ r, leastVertex p cmp = some r ∧ r.bestVertex = p.v ∧
      r.polygon.targetVertex = p.v ∧ r.calls = [] := by
  refine ⟨_, leastVertex_eq p cmp, ?_, ?_, ?_⟩
  · rw [h]; rfl
  · rw [h]; rfl
  · rw [h]; rfl

theorem leastVertex_singleton_witness :
    singlePolygon.size = 1 ∧
      ∃ r, leastVertex singlePolygon (fun _ _ => -1) = some r ∧ r.bestVertex = singlePolygon.v ∧
        r.polygon.targetVertex = singlePolygon.v ∧ r.calls = [] :=
  ⟨rfl, leastVertex_singleton singlePolygon rfl (fun _ _ => -1)⟩

/-- C9: `LeftToRightCmp` is the three-way comparator of the lexicographic order on
(x, y): it returns -1 exactly when `a` is before `b`, 1 exactly when `a` is after
`b`, 0 exactly when both coordinates agree; so it is consistent with a single
total order, and only equal points compare equal. -/
theorem LeftToRightCmp_lexicographic :
    (∀ a b : Point2D,
      (LeftToRightCmp a b = -1 ↔ a.x < b.x ∨ (a.x = b.x ∧ a.y < b.y)) ∧
      (LeftToRightCmp a b = 1 ↔ a.x > b.x ∨ (a.x = b.x ∧ a.y > b.y)) ∧
      (LeftToRightCmp a b = 0 ↔ a.x = b.x ∧ a.y = b.y) ∧
      (LeftToRightCmp a b = 0 ↔ a = b)) ∧
    ConsistentCmp LeftToRightCmp := by
  refine ⟨fun a b => ?_, LeftToRightCmp_consistent⟩
  have hab : a = b ↔ a.x = b.x ∧ a.y = b.y := by
    cases a; cases b; simp
  rw [hab, LeftToRightCmp_eq]
  split_ifs <;> refine ⟨?_, ?_, ?_, ?_⟩ <;> (try simp only [false_iff, true_iff]) <;> omega

/-- C10: `RightToLeftCmp` is `LeftToRightCmp` with the arguments swapped, which
is the same as `LeftToRightCmp` with the sign inverted: the three-way comparator
of the reversed lexicographic order. -/
theorem RightToLeftCmp_reverses (a b : Point2D) :
    RightToLeftCmp a b = LeftToRightCmp b a ∧
    LeftToRightCmp b a = -LeftToRightCmp a b ∧
    (RightToLeftCmp a b = -1 ↔ a.x > b.x ∨ (a.x = b.x ∧ a.y > b.y)) ∧
    (RightToLeftCmp a b = 1 ↔ a.x < b.x ∨ (a.x = b.x ∧ a.y < b.y)) ∧
    (RightToLeftCmp a b = 0 ↔ a.x = b.x ∧ a.y = b.y) := by
  unfold RightToLeftCmp
  rw [LeftToRightCmp_eq a b, LeftToRightCmp_eq b a]
  split_ifs <;> refine ⟨rfl, ?_, ?_, ?_, ?_⟩ <;> (try simp only [false_iff, true_iff]) <;> omega

/-! ## Moving the cursor round a closed ring -/

theorem Polygon.nth_setTargetVertex (p : Polygon) (k i : Nat) :
    (p.setTargetVertex (p.nth k)).nth i = p.nth (k + i) :=
  walk_add p.store p.v k i

/-- In a closed ring two step counts reach the same vertex only when they agree
modulo the size. -/
theorem Polygon.ClosedRing.mod_eq_of_nth_eq {p : Polygon} (hr : p.ClosedRing) {a b : Nat}
    (h : p.nth a = p.nth b) : a % p.size = b % p.size := by
  have hpos : 0 < p.size := hr.1
  rw [p.nth_mod hr.2.1 a, p.nth_mod hr.2.1 b] at h
  rcases Nat.lt_trichotomy (a % p.size) (b % p.size) with hlt | heq | hgt
  · exact absurd h.symm (hr.2.2.1 _ (Nat.mod_lt _ hpos) _ hlt)
  · exact heq
  · exact absurd h (hr.2.2.1 _ (Nat.mod_lt _ hpos) _ hgt)

/-- A closed ring stays a closed ring of the same size when the cursor is put on
any vertex reached from the old cursor. -/
theorem Polygon.ClosedRing.setTargetVertex {p : Polygon} (hr : p.ClosedRing) (k : Nat) :
    (p.setTargetVertex (p.nth k)).ClosedRing := by
  have hpos : 0 < p.size := hr.1
  refine ⟨hr.1, ?_, ?_, ?_⟩
  · show (p.setTargetVertex (p.nth k)).nth p.size = p.nth k
    rw [Polygon.nth_setTargetVertex]
    have := p.nth_add_mul hr.2.1 k 1
    rwa [Nat.mul_one] at this
  · intro i hi j hj h
    rw [Polygon.nth_setTargetVertex, Polygon.nth_setTargetVertex] at h
    have hm : (k + i) % p.size = (k + j) % p.size := hr.mod_eq_of_nth_eq h
    have hij : i = j :=
      Nat.ModEq.eq_of_lt_of_lt (Nat.ModEq.add_left_cancel' k hm) hi (lt_trans hj hi)
    omega
  · intro i _
    show (p.store ((p.setTargetVertex (p.nth k)).nth (i + 1))).prev =
      (p.setTargetVertex (p.nth k)).nth i
    rw [Polygon.nth_setTargetVertex, Polygon.nth_setTargetVertex]
    have h1 : p.nth (k + (i + 1)) = p.nth ((k + i) % p.size + 1) := by
      show (p.store (p.nth (k + i))).next = (p.store (p.nth ((k + i) % p.size))).next
      rw [← p.nth_mod hr.2.1]
    rw [h1, hr.2.2.2 _ (Nat.mod_lt _ hpos), ← p.nth_mod hr.2.1]

/-- Moving the cursor inside a closed ring does not change which vertices are in
the ring. -/
theorem Polygon.ClosedRing.inRing_setTargetVertex {p : Polygon} (hr : p.ClosedRing) (k : Nat)
    (w : Nat) : (p.setTargetVertex (p.nth k)).InRing w ↔ p.InRing w := by
  constructor
  · rintro ⟨i, -, rfl⟩
    rw [Polygon.nth_setTargetVertex]
    exact hr.inRing_nth _
  · rintro ⟨j, -, rfl⟩
    have e : (p.setTargetVertex (p.nth k)).nth (j + p.size * k + (p.size - 1) * k) = p.nth j := by
      rw [Polygon.nth_setTargetVertex]
      have hk : k + (j + p.size * k + (p.size - 1) * k) = j + p.size * (2 * k) := by
        have hpos : 1 ≤ p.size := hr.1
        obtain ⟨n, hn⟩ : ∃ n, p.size = n + 1 := ⟨p.size - 1, by omega⟩
        rw [hn]
        simp only [Nat.add_sub_cancel]
        ring
      rw [hk]
      exact p.nth_add_mul hr.2.1 _ _
    rw [← e]
    exact (hr.setTargetVertex k).inRing_nth _

/-- The loop as `leastVertex` enters it always ends: it leaves the cursor
`size - 1 + 1` clockwise steps after the initial target, with the best vertex
of the scan and the comparator invocations of its `size - 1` passes. -/
theorem leastVertexLoop_start (p : Polygon) (cmp : Cmp) :
    leastVertexLoop cmp (p.advance .CLOCKWISE).size 1
        ⟨p.advance .CLOCKWISE, p.targetVertex, []⟩ =
      some ⟨⟨p.store, p.nth (p.size - 1 + 1), p.size⟩, p.best cmp (p.size - 1),
        p.callLog cmp (p.size - 1)⟩ := by
  have h := leastVertexLoop_eq cmp (p.advance .CLOCKWISE).size 1
    ⟨p.advance .CLOCKWISE, p.targetVertex, []⟩ (Nat.sub_le _ _)
  have hsz : (p.advance Rotation.CLOCKWISE).size = p.size := rfl
  simp only [hsz, Polygon.targetVertex] at h
  rw [Scan.steps_eq] at h
  simpa only [hsz, Polygon.targetVertex, List.nil_append] using h

theorem Polygon.callLog_length (p : Polygon) (cmp : Cmp) (n : Nat) :
    (p.callLog cmp n).length = n := by
  simp [Polygon.callLog]

theorem Polygon.callLog_getElem? (p : Polygon) (cmp : Cmp) {n k : Nat} (h : k < n) :
    (p.callLog cmp n)[k]? = some (p.nth (k + 1), p.best cmp k) := by
  simp [Polygon.callLog, List.getElem?_range h]

theorem Polygon.callLog_fst (p : Polygon) (cmp : Cmp) (n : Nat) :
    (p.callLog cmp n).map Prod.fst = (List.range n).map fun k => p.nth (k + 1) := by
  simp [Polygon.callLog, List.map_map, Function.comp_def]

/-- In a closed ring the first arguments of the comparator invocations are
pairwise different vertices. -/
theorem Polygon.ClosedRing.callLog_nodup {p : Polygon} (hr : p.ClosedRing) (cmp : Cmp) :
    ((p.callLog cmp (p.size - 1)).map Prod.fst).Nodup := by
  rw [Polygon.callLog_fst]
  refine List.Nodup.map_on (fun a ha b hb h => ?_) (List.nodup_range _)
  have ha1 := List.mem_range.mp ha
  have hb1 := List.mem_range.mp hb
  have hm := hr.mod_eq_of_nth_eq h
  rw [Nat.mod_eq_of_lt (by omega), Nat.mod_eq_of_lt (by omega)] at hm
  omega

/-! ## The claims on the scan, the cursor and the ring -/

/-- C11: in a closed ring of `size` vertices `leastVertex` invokes the comparator
exactly `size - 1` times; invocation `i` (from 1 to `size - 1`) has as first
argument the vertex `i` clockwise steps after the initial target and as second
argument the best vertex of the passes before it; the first argument is never
the initial target, and every other vertex of the ring is a first argument
exactly once. -/
theorem leastVertex_invocations (p : Polygon) (cmp : Cmp) (hr : p.ClosedRing) :
    ∃ r, leastVertex p cmp = some r ∧ r.calls.length = p.size - 1 ∧
      (∀ i, 1 ≤ i → i < p.size → r.calls[i - 1]? = some (p.nth i, p.best cmp (i - 1))) ∧
      (∀ c, c ∈ r.calls → c.1 ≠ p.v) ∧
      (∀ w, p.InRing w → w ≠ p.v → (r.calls.map Prod.fst).count w = 1) := by
  refine ⟨_, leastVertex_eq p cmp, p.callLog_length cmp _, fun i h1 hi => ?_, ?_, ?_⟩
  · have h := p.callLog_getElem? cmp (show i - 1 < p.size - 1 by omega)
    rwa [Nat.sub_add_cancel h1] at h
  · intro c hc h0
    obtain ⟨k, hk, rfl⟩ := List.mem_map.mp hc
    have hk1 := List.mem_range.mp hk
    have hm := hr.mod_eq_of_nth_eq (show p.nth (k + 1) = p.nth 0 from h0)
    rw [Nat.mod_eq_of_lt (by omega), Nat.zero_mod] at hm
    omega
  · rintro w ⟨i, hi, rfl⟩ hw
    apply List.count_eq_one_of_mem (hr.callLog_nodup cmp)
    show p.nth i ∈ (p.callLog cmp (p.size - 1)).map Prod.fst
    rw [Polygon.callLog_fst]
    have hi0 : i ≠ 0 := fun h => hw (by rw [h]; rfl)
    exact List.mem_map.mpr ⟨i - 1, List.mem_range.mpr (by omega), by
      rw [Nat.sub_add_cancel (by omega)]⟩

theorem leastVertex_invocations_witness :
    mainPolygon.ClosedRing ∧
      ∃ r, leastVertex mainPolygon LeftToRightCmp = some r ∧
        r.calls.length = mainPolygon.size - 1 ∧
        (∀ i, 1 ≤ i → i < mainPolygon.size →
          r.calls[i - 1]? = some (mainPolygon.nth i, mainPolygon.best LeftToRightCmp (i - 1))) ∧
        (∀ c, c ∈ r.calls → c.1 ≠ mainPolygon.v) ∧
        (∀ w, mainPolygon.InRing w → w ≠ mainPolygon.v →
          (r.calls.map Prod.fst).count w = 1) :=
  ⟨by decide, leastVertex_invocations mainPolygon LeftToRightCmp (by decide)⟩

/-- C12, as stated, fails: on the ring of `main` with `LeftToRightCmp` the loop
ends with the cursor on the start vertex (address 0) while the winning vertex is
the one at address 3. -/
theorem cursor_after_loop_not_winner :
    mainPolygon.ClosedRing ∧ ConsistentCmp LeftToRightCmp ∧
      ∃ s, leastVertexLoop LeftToRightCmp (mainPolygon.advance .CLOCKWISE).size 1
          ⟨mainPolygon.advance .CLOCKWISE, mainPolygon.targetVertex, []⟩ = some s ∧
        s.polygon.targetVertex = 0 ∧ s.bestVertex = 3 ∧
        s.polygon.targetVertex ≠ s.bestVertex := by
  have e1 : mainPolygon.nth (mainPolygon.size - 1 + 1) = 0 := by decide
  have e2 : mainPolygon.best LeftToRightCmp (mainPolygon.size - 1) = 3 := by decide
  refine ⟨by decide, LeftToRightCmp_consistent, _, leastVertexLoop_start _ _, ?_, e2, ?_⟩
  · exact e1
  · show mainPolygon.nth (mainPolygon.size - 1 + 1) ≠
      mainPolygon.best LeftToRightCmp (mainPolygon.size - 1)
    rw [e1, e2]
    decide

/-- C12, amended: in a closed ring, for every comparator, the loop of
`leastVertex` makes `size - 1` passes; pass `i` finds the cursor `i` clockwise
steps after the initial target, none of these positions being the initial
target; after the last pass the cursor is `size` steps after the initial target,
which is the initial target again.  So the cursor is on the winning vertex then
only if the initial target is the winner, and it is `setTargetVertex` that puts
the cursor on the vertex returned. -/
theorem leastVertex_cursor_after_loop (p : Polygon) (cmp : Cmp) (hr : p.ClosedRing) :
    ∃ s, leastVertexLoop cmp (p.advance .CLOCKWISE).size 1
          ⟨p.advance .CLOCKWISE, p.targetVertex, []⟩ = some s ∧
      s = Scan.steps cmp (p.size - 1) ⟨p.advance .CLOCKWISE, p.targetVertex, []⟩ ∧
      (∀ n, (Scan.steps cmp n ⟨p.advance .CLOCKWISE, p.targetVertex, []⟩).polygon.targetVertex =
        p.nth (n + 1)) ∧
      s.calls.length = p.size - 1 ∧
      (∀ i, 1 ≤ i → i < p.size → (s.calls[i - 1]?).map Prod.fst = some (p.nth i)) ∧
      (∀ i, 1 ≤ i → i < p.size → p.nth i ≠ p.v) ∧
      s.polygon.targetVertex = p.nth p.size ∧
      s.polygon.targetVertex = p.v ∧
      (s.polygon.targetVertex = s.bestVertex ↔ s.bestVertex = p.v) ∧
      leastVertex p cmp =
        some ⟨s.polygon.setTargetVertex s.bestVertex, s.bestVertex, s.calls⟩ ∧
      (s.polygon.setTargetVertex s.bestVertex).targetVertex = s.bestVertex := by
  have hsize : p.size - 1 + 1 = p.size := Nat.sub_add_cancel hr.1
  have hback : p.nth (p.size - 1 + 1) = p.v := by
    rw [hsize]
    exact hr.2.1
  refine ⟨_, leastVertexLoop_start p cmp, ?_, fun n => ?_, p.callLog_length cmp _,
    fun i h1 hi => ?_, fun i h1 hi h0 => ?_, ?_, hback, ?_, ?_, rfl⟩
  · exact (Scan.steps_eq cmp p [] (p.size - 1)).symm
  · show (Scan.steps cmp n ⟨p.advance .CLOCKWISE, p.v, []⟩).polygon.v = p.nth (n + 1)
    rw [Scan.steps_eq]
  · show ((p.callLog cmp (p.size - 1))[i - 1]?).map Prod.fst = some (p.nth i)
    rw [p.callLog_getElem? cmp (show i - 1 < p.size - 1 by omega), Nat.sub_add_cancel h1]
    rfl
  · have hm := hr.mod_eq_of_nth_eq (show p.nth i = p.nth 0 from h0)
    rw [Nat.mod_eq_of_lt hi, Nat.zero_mod] at hm
    omega
  · show p.nth (p.size - 1 + 1) = p.nth p.size
    rw [hsize]
  · show p.nth (p.size - 1 + 1) = p.best cmp (p.size - 1) ↔ p.best cmp (p.size - 1) = p.v
    rw [hback]
    exact eq_comm
  · rw [leastVertex_eq]
    rfl

theorem leastVertex_cursor_after_loop_witness :
    mainPolygon.ClosedRing ∧
      ∃ s, leastVertexLoop RightToLeftCmp (mainPolygon.advance .CLOCKWISE).size 1
            ⟨mainPolygon.advance .CLOCKWISE, mainPolygon.targetVertex, []⟩ = some s ∧
        s = Scan.steps RightToLeftCmp (mainPolygon.size - 1)
          ⟨mainPolygon.advance .CLOCKWISE, mainPolygon.targetVertex, []⟩ ∧
        (∀ n, (Scan.steps RightToLeftCmp n
            ⟨mainPolygon.advance .CLOCKWISE, mainPolygon.targetVertex, []⟩).polygon.targetVertex =
          mainPolygon.nth (n + 1)) ∧
        s.calls.length = mainPolygon.size - 1 ∧
        (∀ i, 1 ≤ i → i < mainPolygon.size →
          (s.calls[i - 1]?).map Prod.fst = some (mainPolygon.nth i)) ∧
        (∀ i, 1 ≤ i → i < mainPolygon.size → mainPolygon.nth i ≠ mainPolygon.v) ∧
        s.polygon.targetVertex = mainPolygon.nth mainPolygon.size ∧
        s.polygon.targetVertex = mainPolygon.v ∧
        (s.polygon.targetVertex = s.bestVertex ↔ s.bestVertex = mainPolygon.v) ∧
        leastVertex mainPolygon RightToLeftCmp =
          some ⟨s.polygon.setTargetVertex s.bestVertex, s.bestVertex, s.calls⟩ ∧
        (s.polygon.setTargetVertex s.bestVertex).targetVertex = s.bestVertex :=
  ⟨by decide, leastVertex_cursor_after_loop mainPolygon RightToLeftCmp (by decide)⟩

/-- With a comparator that only reads point values the two translations of the
loop agree. -/
theorem leastVertexLoopW_byValue (cmp : Cmp) (fuel i : Nat) (s : Scan) :
    leastVertexLoopW (Cmp.byValue cmp) fuel i s = leastVertexLoop cmp fuel i s := by
  induction fuel generalizing i s with
  | zero =>
    rw [leastVertexLoopW, leastVertexLoop]
  | succ fuel ih =>
    rw [leastVertexLoopW, leastVertexLoop]
    by_cases hi : i < s.polygon.size
    · rw [if_pos hi, if_pos hi]
      exact ih _ _
    · rw [if_neg hi, if_neg hi]

/-- With a comparator that only reads point values the two translations of
`leastVertex` agree. -/
theorem leastVertexW_byValue (p : Polygon) (cmp : Cmp) :
    leastVertexW p (Cmp.byValue cmp) = leastVertex p cmp := by
  unfold leastVertexW leastVertex
  simp only [leastVertexLoopW_byValue]

/-- With a comparator that leaves the memory as it was, and enough fuel, the
loop ends with the store and the size it started with. -/
theorem leastVertexLoopW_frame (cmp : PtrCmp) (hro : ∀ st a b, (cmp st a b).2 = st)
    (fuel i : Nat) (s : Scan) (h : s.polygon.size - i ≤ fuel) :
    ∃ s', leastVertexLoopW cmp fuel i s = some s' ∧ s'.polygon.store = s.polygon.store ∧
      s'.polygon.size = s.polygon.size := by
  induction fuel generalizing i s with
  | zero =>
    have hi : ¬ i < s.polygon.size := by omega
    rw [leastVertexLoopW, if_neg hi]
    exact ⟨s, rfl, rfl, rfl⟩
  | succ fuel ih =>
    by_cases hi : i < s.polygon.size
    · rw [leastVertexLoopW, if_pos hi]
      obtain ⟨s', e, hst, hsz⟩ := ih (i + 1)
        ⟨({ s.polygon with
            store := (cmp s.polygon.store s.polygon.targetVertex s.bestVertex).2 } :
              Polygon).advance .CLOCKWISE,
          if (cmp s.polygon.store s.polygon.targetVertex s.bestVertex).1 < 0 then
            s.polygon.targetVertex
          else s.bestVertex,
          s.calls ++ [(s.polygon.targetVertex, s.bestVertex)]⟩
        (by show s.polygon.size - (i + 1) ≤ fuel; omega)
      refine ⟨s', e, ?_, hsz⟩
      rw [hst]
      exact hro _ _ _
    · rw [leastVertexLoopW, if_neg hi]
      exact ⟨s, rfl, rfl, rfl⟩

/-- C13, as stated, fails: the comparator is handed two pointers that are not
`const`, so it can write to the points of the vertices; on the ring of `main`
the call with `overwritingCmp` returns and leaves the point of the vertex at
address 3 changed from (-1,-3) to (0,0). -/
theorem leastVertex_frame_fails_with_writing_cmp :
    mainPolygon.ClosedRing ∧
      (mainPolygon.store 3).point = ⟨-1, -3⟩ ∧
      (leastVertexW mainPolygon overwritingCmp).map (fun r => (r.polygon.store 3).point) =
        some ⟨0, 0⟩ := by
  refine ⟨by decide, by decide, ?_⟩
  decide

/-- C13, amended: `leastVertex` changes nothing but the cursor when the comparator
does not write through its arguments: for every polygon (so for every non-empty
closed ring) and every comparator that leaves the memory as it was, the call
returns, and the store (every point, every `next` and `prev` link) and the
cached size of the polygon it leaves are those of the polygon it was given. -/
theorem leastVertex_frame (p : Polygon) (cmp : PtrCmp)
    (hro : ∀ st a b, (cmp st a b).2 = st) :
    ∃ r, leastVertexW p cmp = some r ∧ r.polygon.store = p.store ∧
      r.polygon.size = p.size ∧
      ∀ a, (r.polygon.store a).point = (p.store a).point ∧
        (r.polygon.store a).next = (p.store a).next ∧
        (r.polygon.store a).prev = (p.store a).prev := by
  obtain ⟨s, e, hst, hsz⟩ := leastVertexLoopW_frame cmp hro (p.advance .CLOCKWISE).size 1
    ⟨p.advance .CLOCKWISE, p.targetVertex, []⟩ (Nat.sub_le _ _)
  have hst' : s.polygon.store = p.store := hst
  have hsz' : s.polygon.size = p.size := hsz
  refine ⟨⟨s.polygon.setTargetVertex s.bestVertex, s.bestVertex, s.calls⟩, ?_, hst', hsz',
    fun a => ?_⟩
  · unfold leastVertexW
    simp only [e]
  · show (s.polygon.store a).point = _ ∧ (s.polygon.store a).next = _ ∧
      (s.polygon.store a).prev = _
    rw [hst']
    exact ⟨rfl, rfl, rfl⟩

theorem leastVertex_frame_witness :
    (∀ st a b, (Cmp.byValue LeftToRightCmp st a b).2 = st) ∧
      ∃ r, leastVertexW mainPolygon (Cmp.byValue LeftToRightCmp) = some r ∧
        r.polygon.store = mainPolygon.store ∧ r.polygon.size = mainPolygon.size ∧
        ∀ a, (r.polygon.store a).point = (mainPolygon.store a).point ∧
          (r.polygon.store a).next = (mainPolygon.store a).next ∧
          (r.polygon.store a).prev = (mainPolygon.store a).prev :=
  ⟨fun _ _ _ => rfl,
    leastVertex_frame mainPolygon (Cmp.byValue LeftToRightCmp) (fun _ _ _ => rfl)⟩

/-- C14: for every non-empty closed ring and every comparator whatsoever, the
vertex `leastVertex` passes to `setTargetVertex` and returns is a vertex of the
ring, the new target vertex is that vertex, and the polygon it leaves is again a
closed ring of the same vertices. -/
theorem leastVertex_keeps_ring (p : Polygon) (cmp : Cmp) (hr : p.ClosedRing) :
    ∃ r, leastVertex p cmp = some r ∧ p.InRing r.bestVertex ∧
      r.polygon.targetVertex = r.bestVertex ∧ p.InRing r.polygon.targetVertex ∧
      r.polygon.ClosedRing ∧ ∀ w, r.polygon.InRing w ↔ p.InRing w := by
  obtain ⟨k, hk, e⟩ := p.best_eq_nth cmp (p.size - 1)
  have h1 := hr.1
  have hin : p.InRing (p.best cmp (p.size - 1)) := ⟨k, by omega, e.symm⟩
  refine ⟨_, leastVertex_eq p cmp, hin, rfl, hin, ?_, ?_⟩
  · show (p.setTargetVertex (p.best cmp (p.size - 1))).ClosedRing
    rw [e]
    exact hr.setTargetVertex k
  · intro w
    show (p.setTargetVertex (p.best cmp (p.size - 1))).InRing w ↔ p.InRing w
    rw [e]
    exact hr.inRing_setTargetVertex k w

theorem leastVertex_keeps_ring_witness :
    mainPolygon.ClosedRing ∧
      ∃ r, leastVertex mainPolygon (fun _ _ => -1) = some r ∧ mainPolygon.InRing r.bestVertex ∧
        r.polygon.targetVertex = r.bestVertex ∧ mainPolygon.InRing r.polygon.targetVertex ∧
        r.polygon.ClosedRing ∧ ∀ w, r.polygon.InRing w ↔ mainPolygon.InRing w :=
  ⟨by decide, leastVertex_keeps_ring mainPolygon (fun _ _ => -1) (by decide)⟩

/-- With a comparator that is consistent and puts two different points never on
a par, the point of the best vertex is the same from every cursor position of a
closed ring. -/
theorem Polygon.ClosedRing.best_point_eq {p : Polygon} (hr : p.ClosedRing) {cmp : Cmp}
    (hc : ConsistentCmp cmp) (ha : ∀ a b, cmp a b ≤ 0 → cmp b a ≤ 0 → a = b) (k : Nat) :
    p.pointAt (p.best cmp (p.size - 1)) =
      p.pointAt ((p.setTargetVertex (p.nth k)).best cmp (p.size - 1)) := by
  obtain ⟨hin1, hle1⟩ := Polygon.best_least hr hc
  obtain ⟨hin2, hle2⟩ := Polygon.best_least (hr.setTargetVertex k) hc
  exact ha _ _ (hle1 _ ((hr.inRing_setTargetVertex k _).mp hin2))
    (hle2 _ ((hr.inRing_setTargetVertex k _).mpr hin1))

theorem LeftToRightCmp_antisymm (a b : Point2D) (h1 : LeftToRightCmp a b ≤ 0)
    (h2 : LeftToRightCmp b a ≤ 0) : a = b := by
  rw [LeftToRightCmp_nonpos_iff] at h1 h2
  cases a
  cases b
  simp only [Point2D.mk.injEq] at *
  omega

theorem RightToLeftCmp_antisymm (a b : Point2D) (h1 : RightToLeftCmp a b ≤ 0)
    (h2 : RightToLeftCmp b a ≤ 0) : a = b :=
  LeftToRightCmp_antisymm a b h2 h1

/-- With `Vertex.insert` as modelled here (the new vertex becomes the `next` of
the start vertex) the first arguments of the comparator invocations on the ring
of `main` carry, in this order, the points (-1,-3), (4,-3), (4,3).  This is a
fact of the modelled `insert` only: `Polygon.h` is not among the sources. -/
theorem mainPolygon_callLog_points :
    (mainPolygon.callLog LeftToRightCmp (mainPolygon.size - 1)).map
      (fun c => mainPolygon.pointAt c.1) = [⟨-1, -3⟩, ⟨4, -3⟩, ⟨4, 3⟩] := by
  decide

/-- C16: in a closed ring of `size` vertices scanned with a comparator consistent
with a total order, `leastVertex` returns the vertex `k` clockwise steps after
the initial target, where `k` is the smallest index below `size` whose vertex the
comparator puts after no vertex of the ring; so an initial target that is such a
minimum is returned, ties or not. -/
theorem leastVertex_first_minimum (p : Polygon) (cmp : Cmp) (hr : p.ClosedRing)
    (hc : ConsistentCmp cmp) :
    ∃ r k, leastVertex p cmp = some r ∧ k < p.size ∧ r.bestVertex = p.nth k ∧
      (∀ j, j < p.size → cmp (p.pointAt (p.nth k)) (p.pointAt (p.nth j)) ≤ 0) ∧
      (∀ i, i < p.size →
        (∀ j, j < p.size → cmp (p.pointAt (p.nth i)) (p.pointAt (p.nth j)) ≤ 0) → k ≤ i) ∧
      ((∀ j, j < p.size → cmp (p.pointAt p.v) (p.pointAt (p.nth j)) ≤ 0) →
        r.bestVertex = p.v) := by
  obtain ⟨k, hk, e, hlt, hle⟩ := p.best_first hc (p.size - 1)
  have h1 := hr.1
  have hmin : ∀ i, i < p.size →
      (∀ j, j < p.size → cmp (p.pointAt (p.nth i)) (p.pointAt (p.nth j)) ≤ 0) → k ≤ i := by
    intro i _ hi
    by_contra hik
    exact hc.not_lt_of_le (hi k (by omega)) (hlt i (by omega))
  refine ⟨_, k, leastVertex_eq p cmp, by omega, e, fun j hj => hle j (by omega), hmin, ?_⟩
  intro h0
  have hk0 : k = 0 := Nat.le_zero.mp (hmin 0 (by omega) h0)
  show p.best cmp (p.size - 1) = p.v
  rw [e, hk0]
  rfl

theorem leastVertex_first_minimum_witness :
    tiePolygon.ClosedRing ∧ ConsistentCmp RightToLeftCmp ∧
      ∃ r k, leastVertex tiePolygon RightToLeftCmp = some r ∧ k < tiePolygon.size ∧
        r.bestVertex = tiePolygon.nth k ∧
        (∀ j, j < tiePolygon.size →
          RightToLeftCmp (tiePolygon.pointAt (tiePolygon.nth k))
            (tiePolygon.pointAt (tiePolygon.nth j)) ≤ 0) ∧
        (∀ i, i < tiePolygon.size →
          (∀ j, j < tiePolygon.size →
            RightToLeftCmp (tiePolygon.pointAt (tiePolygon.nth i))
              (tiePolygon.pointAt (tiePolygon.nth j)) ≤ 0) → k ≤ i) ∧
        ((∀ j, j < tiePolygon.size →
            RightToLeftCmp (tiePolygon.pointAt tiePolygon.v)
              (tiePolygon.pointAt (tiePolygon.nth j)) ≤ 0) →
          r.bestVertex = tiePolygon.v) :=
  ⟨by decide, RightToLeftCmp_consistent,
    leastVertex_first_minimum tiePolygon RightToLeftCmp (by decide) RightToLeftCmp_consistent⟩

/-- C17: for every non-empty closed ring and every vertex `w` of it, `leastVertex`
started with the cursor on `w` returns a vertex carrying the same point as when
started from the original cursor, with `LeftToRightCmp` and with
`RightToLeftCmp` alike; the ring node itself may differ, as in the two-vertex
ring whose vertices carry equal points. -/
theorem leastVertex_point_independent :
    (∀ (p : Polygon) (w : Nat), p.ClosedRing → p.InRing w →
      (∃ r1 r2, leastVertex p LeftToRightCmp = some r1 ∧
        leastVertex (p.setTargetVertex w) LeftToRightCmp = some r2 ∧
        p.pointAt r1.bestVertex = p.pointAt r2.bestVertex) ∧
      (∃ r1 r2, leastVertex p RightToLeftCmp = some r1 ∧
        leastVertex (p.setTargetVertex w) RightToLeftCmp = some r2 ∧
        p.pointAt r1.bestVertex = p.pointAt r2.bestVertex)) ∧
    (tiePolygon.ClosedRing ∧ tiePolygon.InRing 1 ∧
      ∃ r1 r2, leastVertex tiePolygon LeftToRightCmp = some r1 ∧
        leastVertex (tiePolygon.setTargetVertex 1) LeftToRightCmp = some r2 ∧
        r1.bestVertex ≠ r2.bestVertex) := by
  constructor
  · rintro p w hr ⟨k, -, rfl⟩
    exact ⟨⟨_, _, leastVertex_eq _ _, leastVertex_eq _ _,
        hr.best_point_eq LeftToRightCmp_consistent LeftToRightCmp_antisymm k⟩,
      ⟨_, _, leastVertex_eq _ _, leastVertex_eq _ _,
        hr.best_point_eq RightToLeftCmp_consistent RightToLeftCmp_antisymm k⟩⟩
  · refine ⟨by decide, by decide, _, _, leastVertex_eq _ _, leastVertex_eq _ _, ?_⟩
    show tiePolygon.best LeftToRightCmp (tiePolygon.size - 1) ≠
      (tiePolygon.setTargetVertex 1).best LeftToRightCmp ((tiePolygon.setTargetVertex 1).size - 1)
    decide

theorem leastVertex_point_independent_witness :
    mainPolygon.ClosedRing ∧ mainPolygon.InRing 2 ∧
      (∃ r1 r2, leastVertex mainPolygon LeftToRightCmp = some r1 ∧
        leastVertex (mainPolygon.setTargetVertex 2) LeftToRightCmp = some r2 ∧
        mainPolygon.pointAt r1.bestVertex = mainPolygon.pointAt r2.bestVertex) ∧
      (∃ r1 r2, leastVertex mainPolygon RightToLeftCmp = some r1 ∧
        leastVertex (mainPolygon.setTargetVertex 2) RightToLeftCmp = some r2 ∧
        mainPolygon.pointAt r1.bestVertex = mainPolygon.pointAt r2.bestVertex) :=
  ⟨by decide, by decide, leastVertex_point_independent.1 mainPolygon 2 (by decide) (by decide)⟩

end Geometry
